import Mathlib

set_option maxHeartbeats 1000000

/-!
Shallow embedding of the pymp parallel-region library (file pymp/__init__.py).

Pure fragments (the static scheduler Parallel.range) are embedded as Lean
functions on lists; the stateful fragments (Parallel.__enter__,
Parallel.__exit__, the dynamic scheduler Parallel.xrange together with
_QueueIterator.next) are embedded as explicit state-passing functions and a
small-step trace semantics over the shared dynamic-scheduler state.
-/

/-! ## Python range semantics -/

/-- Number of elements of the Python stride sequence range(start, stop, step);
0 when step = 0 (where CPython raises ValueError instead). -/
def rangeLen (start stop step : Int) : Nat :=
  if 0 < step then (stop - start + step - 1).toNat / step.toNat
  else if step < 0 then (start - stop + (-step) - 1).toNat / (-step).toNat
  else 0

/-- The Python stride sequence range(start, stop, step) as a list. -/
def rangeList (start stop step : Int) : List Int :=
  (List.range (rangeLen start stop step)).map (fun i => start + step * (i : Int))

/-- The argument defaulting shared by Parallel.range and Parallel.xrange:
if stop is None then start, stop = 0, start. -/
def resolveStartStop (start : Int) (stop : Option Int) : Int × Int :=
  match stop with
  | none => (0, start)
  | some s => (start, s)

/-! ## Static scheduler: Parallel.range -/

/-- Parallel.range, the OpenMP-static schedule: the contiguous chunk of the
stride sequence handed to worker threadNum out of numThreads workers.
Translated line by line from the source: full_list, per_worker, rem,
schedule, start_idx (the reduce over schedule[:thread_num], a Python-2 fold),
end_idx, and the slice full_list[start_idx:end_idx]. -/
def prange (numThreads threadNum : Nat) (start : Int) (stop : Option Int)
    (step : Int) : List Int :=
  let ss := resolveStartStop start stop
  let full_list := rangeList ss.1 ss.2 step
  let per_worker := full_list.length / numThreads
  let rem := full_list.length % numThreads
  let schedule := (List.range numThreads).map
      (fun thread_idx => if thread_idx < rem then per_worker + 1 else per_worker)
  let start_idx := (schedule.take threadNum).sum
  let end_idx := start_idx + schedule.getD threadNum 0
  (full_list.drop start_idx).take (end_idx - start_idx)

/-- The chunk size the spec predicts for worker t: the L mod W lowest-indexed
workers get one extra item on top of L div W. -/
def chunkSize (W L t : Nat) : Nat := if t < L % W then L / W + 1 else L / W

lemma sched_sum (pw : Nat) : ∀ (W r : Nat), r ≤ W →
    ((List.range W).map (fun t => if t < r then pw + 1 else pw)).sum
      = W * pw + r := by
  intro W
  induction W with
  | zero =>
    intro r hr
    have : r = 0 := Nat.le_zero.mp hr
    subst this
    simp
  | succ n ih =>
    intro r hr
    rw [List.range_succ, List.map_append, List.sum_append]
    rcases Nat.lt_or_ge r (n + 1) with h | h
    · have hrn : r ≤ n := Nat.lt_succ_iff.mp h
      rw [ih r hrn]
      have : ¬ n < r := Nat.not_lt.mpr hrn
      simp only [this, if_false, List.map_cons, List.map_nil, List.sum_cons,
        List.sum_nil]
      ring
    · have hr1 : r = n + 1 := le_antisymm hr h
      subst hr1
      have hmap : ((List.range n).map (fun t => if t < n + 1 then pw + 1 else pw))
          = ((List.range n).map (fun t => if t < n then pw + 1 else pw)) := by
        apply List.map_congr_left
        intro t ht
        have htn : t < n := List.mem_range.mp ht
        simp [htn, Nat.lt_succ_of_lt htn]
      rw [hmap, ih n le_rfl]
      have : n < n + 1 := Nat.lt_succ_self n
      simp only [this, if_true, List.map_cons, List.map_nil, List.sum_cons,
        List.sum_nil]
      ring

lemma chunkSize_sum (W L : Nat) (hW : 0 < W) :
    ((List.range W).map (chunkSize W L)).sum = L := by
  have hr : L % W ≤ W := le_of_lt (Nat.mod_lt _ hW)
  have := sched_sum (L / W) W (L % W) hr
  unfold chunkSize
  rw [this]
  exact Nat.div_add_mod L W

lemma range_map_sum_split (f : Nat → Nat) (W t : Nat) (ht : t ≤ W) :
    ((List.range W).map f).sum
      = ((List.range t).map f).sum + (((List.range W).drop t).map f).sum := by
  conv_lhs => rw [← List.take_append_drop t (List.range W)]
  rw [List.map_append, List.sum_append, List.take_range, Nat.min_eq_left ht]

lemma chunk_prefix_sum_le (W L t : Nat) (hW : 0 < W) (ht : t ≤ W) :
    ((List.range t).map (chunkSize W L)).sum ≤ L := by
  have := range_map_sum_split (chunkSize W L) W t ht
  have hsum := chunkSize_sum W L hW
  omega

lemma schedule_getD (f : Nat → Nat) (W t : Nat) (ht : t < W) :
    ((List.range W).map f).getD t 0 = f t := by
  rw [List.getD_eq_getElem?_getD, List.getElem?_map, List.getElem?_range ht]
  rfl

lemma schedule_take (f : Nat → Nat) (W t : Nat) (ht : t ≤ W) :
    ((List.range W).map f).take t = (List.range t).map f := by
  rw [← List.map_take, List.take_range, Nat.min_eq_left ht]

/-- Characterization of the chunk as a slice at the sum of the lower chunk
sizes. -/
lemma prange_eq_slice (W t : Nat) (start : Int) (stop : Option Int) (step : Int)
    (ht : t < W) :
    prange W t start stop step =
      ((rangeList (resolveStartStop start stop).1 (resolveStartStop start stop).2
          step).drop
        (((List.range t).map
            (chunkSize W (rangeList (resolveStartStop start stop).1
              (resolveStartStop start stop).2 step).length)).sum)).take
        (chunkSize W (rangeList (resolveStartStop start stop).1
          (resolveStartStop start stop).2 step).length t) := by
  unfold prange
  simp only []
  set full := rangeList (resolveStartStop start stop).1
    (resolveStartStop start stop).2 step with hfull
  have hfun : (fun thread_idx =>
      if thread_idx < full.length % W then full.length / W + 1
      else full.length / W) = chunkSize W full.length := by
    funext s
    rfl
  rw [hfun]
  rw [schedule_take (chunkSize W full.length) W t (le_of_lt ht),
    schedule_getD (chunkSize W full.length) W t ht]
  congr 1
  omega

lemma prange_length (W t : Nat) (start : Int) (stop : Option Int) (step : Int)
    (hW : 0 < W) (ht : t < W) :
    (prange W t start stop step).length =
      chunkSize W (rangeList (resolveStartStop start stop).1
        (resolveStartStop start stop).2 step).length t := by
  rw [prange_eq_slice W t start stop step ht]
  set full := rangeList (resolveStartStop start stop).1
    (resolveStartStop start stop).2 step
  rw [List.length_take, List.length_drop]
  have hsplit : ((List.range t).map (chunkSize W full.length)).sum
      + chunkSize W full.length t
      = ((List.range (t + 1)).map (chunkSize W full.length)).sum := by
    rw [List.range_succ, List.map_append, List.sum_append]
    simp
  have hle : ((List.range (t + 1)).map (chunkSize W full.length)).sum
      ≤ full.length := chunk_prefix_sum_le W full.length (t + 1) hW ht
  omega

lemma join_slices (xs : List Int) (f : Nat → Nat) :
    ∀ n, ((List.range n).map
        (fun t => (xs.drop (((List.range t).map f).sum)).take (f t))).flatten
      = xs.take (((List.range n).map f).sum) := by
  intro n
  induction n with
  | zero => simp
  | succ m ih =>
    rw [List.range_succ, List.map_append, List.flatten_append, ih]
    simp only [List.map_append, List.map_cons, List.map_nil, List.flatten_cons,
      List.flatten_nil, List.append_nil, List.sum_append, List.sum_cons,
      List.sum_nil, Nat.add_zero]
    rw [List.take_add]

/-- C1: the W static chunks of Parallel.range, concatenated in worker order,
reconstruct the full stride sequence with no gaps or overlaps; worker t's
chunk has size L div W + 1 for the L mod W lowest indices and L div W
otherwise; and each worker's chunk is located at offset equal to the sum of
the chunk sizes of all lower-indexed workers. -/
theorem static_chunks_partition (W : Nat) (hW : 1 ≤ W)
    (start : Int) (stop : Option Int) (step : Int) :
    ((List.range W).map (fun t => prange W t start stop step)).flatten
        = rangeList (resolveStartStop start stop).1
            (resolveStartStop start stop).2 step
    ∧ (∀ t, t < W → (prange W t start stop step).length =
        (if t < (rangeList (resolveStartStop start stop).1
              (resolveStartStop start stop).2 step).length % W
         then (rangeList (resolveStartStop start stop).1
              (resolveStartStop start stop).2 step).length / W + 1
         else (rangeList (resolveStartStop start stop).1
              (resolveStartStop start stop).2 step).length / W))
    ∧ (∀ t, t < W → prange W t start stop step =
        ((rangeList (resolveStartStop start stop).1
            (resolveStartStop start stop).2 step).drop
          (((List.range t).map
              (fun s => (prange W s start stop step).length)).sum)).take
          ((prange W t start stop step).length)) := by
  have hW0 : 0 < W := hW
  set full := rangeList (resolveStartStop start stop).1
    (resolveStartStop start stop).2 step with hfull
  refine ⟨?_, ?_, ?_⟩
  · have hmap : ((List.range W).map (fun t => prange W t start stop step))
        = ((List.range W).map (fun t =>
            (full.drop (((List.range t).map (chunkSize W full.length)).sum)).take
              (chunkSize W full.length t))) := by
      apply List.map_congr_left
      intro t ht
      exact prange_eq_slice W t start stop step (List.mem_range.mp ht)
    rw [hmap, join_slices full (chunkSize W full.length) W,
      chunkSize_sum W full.length hW0, List.take_length]
  · intro t ht
    exact prange_length W t start stop step hW0 ht
  · intro t ht
    have hlen : ((List.range t).map (fun s => (prange W s start stop step).length))
        = ((List.range t).map (chunkSize W full.length)) := by
      apply List.map_congr_left
      intro s hs
      exact prange_length W s start stop step hW0
        (lt_trans (List.mem_range.mp hs) ht)
    rw [hlen, prange_length W t start stop step hW0 ht]
    exact prange_eq_slice W t start stop step ht

/-- Witness for C1 at W = 2, range(5): chunks [0,1,2] and [3,4]. -/
theorem static_chunks_partition_wit :
    ((List.range 2).map (fun t => prange 2 t 5 none 1)).flatten
      = rangeList (resolveStartStop 5 none).1 (resolveStartStop 5 none).2 1 :=
  (static_chunks_partition 2 (by decide) 5 none 1).1

/-! ## Region lifecycle: Parallel.__enter__ and Parallel.__exit__

`pymp.config` and `pymp.shared` only supply data (the configured thread-count
list, the nested flag, the optional thread limit, the shared _NUM_PROCS
counter and Parallel._level); they enter the model as explicit parameters
and state.  All decision logic below is translated from Parallel.__enter__
and Parallel.__exit__.  Operations under `_shared._LOCK` are atomic, so the
counter updates are plain state updates here. -/

/-- The configuration read by Parallel.__enter__ (pymp.config values). -/
structure Config where
  num_threads : List Int
  nested : Bool
  thread_limit : Option Int
deriving Repr, DecidableEq

/-- Process-tree-wide bookkeeping: Parallel._level and _shared._NUM_PROCS. -/
structure GlobalState where
  level : Nat
  numProcs : Int
deriving Repr, DecidableEq

/-- The Parallel object's own mutable fields used at entry. -/
structure Pobj where
  numThreads : Option Int
  pids : List Nat
  threadLoopIds : List Int
deriving Repr, DecidableEq

def usedOnceError : String := "A `Parallel` object may only be used once!"

def numThreadsConfigError : String :=
  "The value of PYMP_NUM_THREADS/OMP_NUM_THREADS must be either a single positive number or a comma-separated list of number per nesting level."

def noNestedError : String := "No nested parallel contexts allowed!"

/-- The num_threads resolution at the top of Parallel.__enter__: an explicit
constructor argument wins; otherwise the configured list must have exactly
one element (used at every depth) or an element at index Parallel._level. -/
def resolveNumThreads (explicit : Option Int) (cfgList : List Int)
    (level : Nat) : Except String Int :=
  match explicit with
  | some n => Except.ok n
  | none =>
    if cfgList.length = 1 ∨ cfgList.length > level then
      if cfgList.length = 1 then Except.ok (cfgList.getD 0 0)
      else Except.ok (cfgList.getD level 0)
    else Except.error numThreadsConfigError

/-- The thread-limit clamp inside Parallel.__enter__ (under _shared._LOCK):
if a limit is configured, num_threads = min(num_threads, limit - active + 1).
There is no flooring step in the source. -/
def clampNumThreads (numThreads : Int) (threadLimit : Option Int)
    (numActive : Int) : Int :=
  match threadLimit with
  | none => numThreads
  | some limit => min numThreads (limit - numActive + 1)

/-- Parallel.__enter__ seen from the coordinating process, as a state
transformer.  Failing asserts return the global state as it stands at the
raise point; fork is modelled as always succeeding, and self._pids collects
one entry per spawned worker (`for thread_num in range(1, num_threads)`),
identified here by its 1-based index in spawn order. -/
def enterSt (cfg : Config) (p : Pobj) (gs : GlobalState) :
    (Except String Pobj) × GlobalState :=
  if p.pids.length ≠ 0 then (Except.error usedOnceError, gs)
  else
    match resolveNumThreads p.numThreads cfg.num_threads gs.level with
    | Except.error e => (Except.error e, gs)
    | Except.ok nt0 =>
      if ¬cfg.nested ∧ gs.level ≠ 0 then (Except.error noNestedError, gs)
      else
        let gs1 : GlobalState := { gs with level := gs.level + 1 }
        let nt := clampNumThreads nt0 cfg.thread_limit gs1.numProcs
        let gs2 : GlobalState := { gs1 with numProcs := gs1.numProcs + nt - 1 }
        (Except.ok { numThreads := some nt,
                     pids := List.range' 1 (nt - 1).toNat,
                     threadLoopIds := List.replicate nt.toNat (-1) },
         gs2)

/-- One recorded worker fault: (exception type, message, worker index). -/
structure ExcEntry where
  excType : String
  excVal : String
  threadNum : Nat
deriving Repr, DecidableEq

/-- Observable actions of the coordinator's Parallel.__exit__. -/
inductive ExitEvent where
  | join (pid : Nat)
  | log (entry : ExcEntry)
  | raised (msg : String)
deriving Repr, DecidableEq

def genericContextError : String :=
  "An exception occured in this parallel context!"

/-- The exception-queue contents the coordinator drains: whatever the workers
recorded, plus the coordinator's own fault pushed at the top of __exit__. -/
def drainedQueue (excInfo : Option (String × String)) (threadNum : Nat)
    (excQueue : List ExcEntry) : List ExcEntry :=
  match excInfo with
  | some ti => excQueue ++ [⟨ti.1, ti.2, threadNum⟩]
  | none => excQueue

/-- Parallel.__exit__ on the coordinator (is_fork = False): push the own
fault if any, waitpid every forked child in order, decrement _NUM_PROCS by
len(pids) and _level by one (the Manager reset touches neither counter and
is omitted), then drain the exception queue, logging every entry, and raise
the single generic exception iff the queue was non-empty. -/
def parallelExit (excInfo : Option (String × String)) (threadNum : Nat)
    (pids : List Nat) (excQueue : List ExcEntry) (gs : GlobalState) :
    List ExitEvent × GlobalState :=
  let queue := drainedQueue excInfo threadNum excQueue
  let joinEvents := pids.map ExitEvent.join
  let gs1 : GlobalState := { level := gs.level - 1,
                             numProcs := gs.numProcs - pids.length }
  let excOccured := !queue.isEmpty
  let logEvents := queue.map ExitEvent.log
  let raiseEvents :=
    if excOccured then [ExitEvent.raised genericContextError] else []
  (joinEvents ++ logEvents ++ raiseEvents, gs1)

def isRaisedEvent : ExitEvent → Bool
  | ExitEvent.raised _ => true
  | _ => false

def isLogEvent : ExitEvent → Bool
  | ExitEvent.log _ => true
  | _ => false

/-- C7: explicit num_threads wins; a one-element configured list applies at
every depth; a longer list is indexed by the current nesting depth and entry
fails with the configuration error when it has no entry for that depth. -/
theorem num_threads_resolution (explicit : Option Int) (cfgList : List Int)
    (level : Nat) :
    (∀ n, explicit = some n →
      resolveNumThreads explicit cfgList level = Except.ok n)
    ∧ (explicit = none → cfgList.length = 1 →
      resolveNumThreads explicit cfgList level = Except.ok (cfgList.getD 0 0))
    ∧ (explicit = none → 1 < cfgList.length → level < cfgList.length →
      resolveNumThreads explicit cfgList level = Except.ok (cfgList.getD level 0))
    ∧ (explicit = none → 1 < cfgList.length → cfgList.length ≤ level →
      resolveNumThreads explicit cfgList level
        = Except.error numThreadsConfigError) := by
  refine ⟨?_, ?_, ?_, ?_⟩
  · intro n hn
    subst hn
    rfl
  · intro he h1
    subst he
    simp [resolveNumThreads, h1]
  · intro he h1 hlev
    subst he
    have hne : cfgList.length ≠ 1 := by omega
    simp [resolveNumThreads, hne, hlev]
  · intro he h1 hlev
    subst he
    have hne : cfgList.length ≠ 1 := by omega
    have hgt : ¬ cfgList.length > level := by omega
    simp [resolveNumThreads, hne, hgt]

/-- Witness for C7: all four branches at concrete inputs. -/
theorem num_threads_resolution_wit :
    resolveNumThreads (some 5) [3] 0 = Except.ok 5
    ∧ resolveNumThreads none [3] 7 = Except.ok 3
    ∧ resolveNumThreads none [4, 2] 1 = Except.ok 2
    ∧ resolveNumThreads none [4, 2] 2 = Except.error numThreadsConfigError :=
  ⟨(num_threads_resolution (some 5) [3] 0).1 5 rfl,
   (num_threads_resolution none [3] 7).2.1 rfl rfl,
   (num_threads_resolution none [4, 2] 1).2.2.1 rfl (by decide) (by decide),
   (num_threads_resolution none [4, 2] 2).2.2.2 rfl (by decide) (by decide)⟩

/-- C4 counterexample: with limit 3 and 5 active workers, a request of 2
resolves to min(2, 3 - 5 + 1) = -1, not to the floored value
max(1, min(2, 3 - 5 + 1)) = 1 the claim predicts, and in particular not to a
value of at least 1. -/
theorem thread_clamp_no_floor_cex :
    clampNumThreads 2 (some 3) 5 = -1
    ∧ clampNumThreads 2 (some 3) 5 ≠ max 1 (min 2 (3 - 5 + 1))
    ∧ ¬ (1 : Int) ≤ clampNumThreads 2 (some 3) 5 := by
  refine ⟨rfl, ?_, ?_⟩ <;> decide

/-- C4 amended: under a configured limit T the resolved count equals
min(r, T - a + 1) with no flooring; it is at least 1 whenever the request is
at least 1 and the active count does not exceed the limit (the invariant the
clamp itself maintains), but can be 0 or negative otherwise. -/
theorem thread_clamp_formula (r t a : Int) :
    clampNumThreads r (some t) a = min r (t - a + 1)
    ∧ (1 ≤ r → a ≤ t → 1 ≤ clampNumThreads r (some t) a) := by
  constructor
  · rfl
  · intro hr ha
    simp only [clampNumThreads, le_min_iff]
    omega

/-- Witness for C4's amended statement at r = 2, T = 3, a = 2. -/
theorem thread_clamp_formula_wit :
    clampNumThreads 2 (some 3) 2 = min 2 (3 - 2 + 1)
    ∧ (1 : Int) ≤ clampNumThreads 2 (some 3) 2 :=
  ⟨(thread_clamp_formula 2 3 2).1,
   (thread_clamp_formula 2 3 2).2 (by decide) (by decide)⟩

/-- C8: once the earlier entry checks pass (unused object, resolvable thread
count), entering with the nested flag false at depth greater than 0 fails
with the usage error, and entering with the nested flag true succeeds. -/
theorem nesting_check (cfg : Config) (p : Pobj) (gs : GlobalState) (nt0 : Int)
    (hpids : p.pids.length = 0)
    (hres : resolveNumThreads p.numThreads cfg.num_threads gs.level
      = Except.ok nt0) :
    (cfg.nested = false → 0 < gs.level →
      enterSt cfg p gs = (Except.error noNestedError, gs))
    ∧ (cfg.nested = true → ∃ p2 gs2,
      enterSt cfg p gs = (Except.ok p2, gs2)) := by
  constructor
  · intro hnest hlev
    unfold enterSt
    rw [hres]
    have h0 : ¬ p.pids.length ≠ 0 := by omega
    have hcond : (¬cfg.nested ∧ gs.level ≠ 0) := by
      constructor
      · simp [hnest]
      · omega
    simp [h0, hcond]
  · intro hnest
    have h0 : ¬ p.pids.length ≠ 0 := by omega
    have hcond : ¬ (¬cfg.nested = true ∧ gs.level ≠ 0) := by
      simp [hnest]
    refine ⟨{ numThreads := some (clampNumThreads nt0 cfg.thread_limit gs.numProcs),
              pids := List.range' 1
                ((clampNumThreads nt0 cfg.thread_limit gs.numProcs) - 1).toNat,
              threadLoopIds := List.replicate
                (clampNumThreads nt0 cfg.thread_limit gs.numProcs).toNat (-1) },
            { level := gs.level + 1,
              numProcs := gs.numProcs
                + clampNumThreads nt0 cfg.thread_limit gs.numProcs - 1 }, ?_⟩
    unfold enterSt
    rw [if_neg h0, hres]
    exact if_neg hcond

/-- Witness for C8: at depth 1 the nested-disabled entry fails with the usage
error and the nested-enabled entry succeeds. -/
theorem nesting_check_wit :
    (enterSt ⟨[2], false, none⟩ ⟨some 2, [], []⟩ ⟨1, 2⟩
      = (Except.error noNestedError, ⟨1, 2⟩))
    ∧ (∃ p2 gs2, enterSt ⟨[2], true, none⟩ ⟨some 2, [], []⟩ ⟨1, 2⟩
      = (Except.ok p2, gs2)) :=
  ⟨(nesting_check ⟨[2], false, none⟩ ⟨some 2, [], []⟩ ⟨1, 2⟩ 2 rfl rfl).1 rfl
      (by decide),
   (nesting_check ⟨[2], true, none⟩ ⟨some 2, [], []⟩ ⟨1, 2⟩ 2 rfl rfl).2 rfl⟩

/-- C10: every failing entry path (already-used object, unresolvable
per-depth thread-count list, nesting disallowed) raises before Parallel._level
or _shared._NUM_PROCS is touched, so a failed entry leaves the global
counters exactly as they were. -/
theorem enter_error_preserves_globals (cfg : Config) (p : Pobj)
    (gs : GlobalState) (e : String) (gs2 : GlobalState)
    (h : enterSt cfg p gs = (Except.error e, gs2)) : gs2 = gs := by
  unfold enterSt at h
  split at h
  · exact (congrArg Prod.snd h).symm
  · split at h
    · exact (congrArg Prod.snd h).symm
    · split at h
      · exact (congrArg Prod.snd h).symm
      · exact absurd (congrArg Prod.fst h) (by simp)

/-- Witness for C10 at a concrete failing entry (already-entered object). -/
theorem enter_error_preserves_globals_wit :
    (⟨1, 3⟩ : GlobalState) = ⟨1, 3⟩ :=
  enter_error_preserves_globals ⟨[2], true, none⟩ ⟨some 2, [7], []⟩ ⟨1, 3⟩
    usedOnceError ⟨1, 3⟩ rfl

/-- C6 counterexample: the re-entry guard is `len(self._pids) == 0`, and a
region whose resolved thread count is 1 forks no workers, so its pids list
stays empty: entering the same object a second time succeeds instead of
failing with the usage error.  First entry from a fresh object, second entry
from the object and global state the first entry produced. -/
theorem reenter_undetected_cex :
    enterSt ⟨[4], true, none⟩ ⟨some 1, [], []⟩ ⟨0, 1⟩
        = (Except.ok ⟨some 1, [], [-1]⟩, ⟨1, 1⟩)
    ∧ enterSt ⟨[4], true, none⟩ ⟨some 1, [], [-1]⟩ ⟨1, 1⟩
        = (Except.ok ⟨some 1, [], [-1]⟩, ⟨2, 1⟩) :=
  ⟨rfl, rfl⟩

/-- C6 amended: a second entry fails with the usage error exactly when the
first entry left a non-empty pids list, i.e. when it spawned at least one
worker (resolved thread count at least 2, in the coordinating process);
an entry whose resolved count is 1 leaves pids empty and re-entry is not
detected (see the counterexample). -/
theorem reenter_after_spawn_fails (cfg cfg2 : Config) (p p2 : Pobj)
    (gs gs2 gs3 : GlobalState) (n : Int)
    (h : enterSt cfg p gs = (Except.ok p2, gs2))
    (hn : p2.numThreads = some n) (h2 : 2 ≤ n) :
    p2.pids.length ≠ 0
    ∧ (enterSt cfg2 p2 gs3).1 = Except.error usedOnceError := by
  unfold enterSt at h
  split at h
  · exact absurd (congrArg Prod.fst h) (by simp)
  · split at h
    · exact absurd (congrArg Prod.fst h) (by simp)
    · split at h
      · exact absurd (congrArg Prod.fst h) (by simp)
      · rename_i h0 nt0 heq hcond
        have h1 := congrArg Prod.fst h
        simp only at h1
        injection h1 with h1
        have hpids : p2.pids = List.range' 1
            ((clampNumThreads nt0 cfg.thread_limit gs.numProcs) - 1).toNat := by
          rw [← h1]
        have hnt : p2.numThreads
            = some (clampNumThreads nt0 cfg.thread_limit gs.numProcs) := by
          rw [← h1]
        rw [hnt] at hn
        injection hn with hn
        have hlen : p2.pids.length ≠ 0 := by
          rw [hpids, List.length_range', hn]
          omega
        refine ⟨hlen, ?_⟩
        unfold enterSt
        rw [if_pos hlen]

lemma take_map_join (pids : List Nat) (rest : List ExitEvent) :
    ((pids.map ExitEvent.join) ++ rest).take pids.length
      = pids.map ExitEvent.join := by
  have hl : pids.length = (pids.map ExitEvent.join).length :=
    (List.length_map _ _).symm
  rw [hl, List.take_left]

lemma filter_raised_joins (pids : List Nat) :
    (pids.map ExitEvent.join).filter isRaisedEvent = [] := by
  induction pids with
  | nil => rfl
  | cons a l ih => simp [List.filter_cons, isRaisedEvent, ih]

lemma filter_raised_logs (q : List ExcEntry) :
    (q.map ExitEvent.log).filter isRaisedEvent = [] := by
  induction q with
  | nil => rfl
  | cons a l ih => simp [List.filter_cons, isRaisedEvent, ih]

lemma filter_log_joins (pids : List Nat) :
    (pids.map ExitEvent.join).filter isLogEvent = [] := by
  induction pids with
  | nil => rfl
  | cons a l ih => simp [List.filter_cons, isLogEvent, ih]

lemma filter_log_logs (q : List ExcEntry) :
    (q.map ExitEvent.log).filter isLogEvent = q.map ExitEvent.log := by
  induction q with
  | nil => rfl
  | cons a l ih => simp [List.filter_cons, isLogEvent, ih]

/-- C5: on the coordinator's exit, the joins of all workers (in pid order)
come first; exactly one failure is raised iff the drained exception queue is
non-empty; whatever is raised is the single generic aggregated exception, so
no recorded fault is re-raised with its original type; and every recorded
fault appears exactly as a log entry. -/
theorem exit_joins_then_aggregates (excInfo : Option (String × String))
    (threadNum : Nat) (pids : List Nat) (excQueue : List ExcEntry)
    (gs : GlobalState) :
    ((parallelExit excInfo threadNum pids excQueue gs).1.take pids.length
        = pids.map ExitEvent.join)
    ∧ (((parallelExit excInfo threadNum pids excQueue gs).1.filter
          isRaisedEvent).length
        = if (drainedQueue excInfo threadNum excQueue).isEmpty then 0 else 1)
    ∧ (∀ m, ExitEvent.raised m
          ∈ (parallelExit excInfo threadNum pids excQueue gs).1
        → m = genericContextError)
    ∧ ((parallelExit excInfo threadNum pids excQueue gs).1.filter isLogEvent
        = (drainedQueue excInfo threadNum excQueue).map ExitEvent.log) := by
  unfold parallelExit
  simp only []
  refine ⟨?_, ?_, ?_, ?_⟩
  · rw [List.append_assoc]
    exact take_map_join pids _
  · rw [List.filter_append, List.filter_append, filter_raised_joins,
      filter_raised_logs]
    cases hq : (drainedQueue excInfo threadNum excQueue).isEmpty with
    | true => simp [hq]
    | false => simp [hq, List.filter_cons, isRaisedEvent]
  · intro m hm
    rcases List.mem_append.mp hm with hm1 | hm2
    · rcases List.mem_append.mp hm1 with hj | hl
      · obtain ⟨x, _, hx⟩ := List.mem_map.mp hj
        exact absurd hx (by simp)
      · obtain ⟨x, _, hx⟩ := List.mem_map.mp hl
        exact absurd hx (by simp)
    · by_cases hq : (drainedQueue excInfo threadNum excQueue).isEmpty
      · rw [if_neg (by simp [hq])] at hm2
        exact absurd hm2 (List.not_mem_nil _)
      · rw [if_pos (by simp [hq])] at hm2
        rcases List.mem_singleton.mp hm2 with h
        injection h with h
  · rw [List.filter_append, List.filter_append, filter_log_joins,
      filter_log_logs]
    cases hq : (drainedQueue excInfo threadNum excQueue).isEmpty with
    | true => simp [hq]
    | false => simp [hq, List.filter_cons, isLogEvent]

/-- Witness for C6's amended statement: after an entry that resolved 2
threads (one spawned worker), re-entry fails with the usage error. -/
theorem reenter_after_spawn_fails_wit :
    (⟨some 2, [1], [-1, -1]⟩ : Pobj).pids.length ≠ 0
    ∧ (enterSt ⟨[4], true, none⟩ ⟨some 2, [1], [-1, -1]⟩ ⟨1, 2⟩).1
        = Except.error usedOnceError :=
  reenter_after_spawn_fails ⟨[4], true, none⟩ ⟨[4], true, none⟩
    ⟨some 2, [], []⟩ ⟨some 2, [1], [-1, -1]⟩ ⟨0, 1⟩ ⟨1, 2⟩ ⟨1, 2⟩ 2
    rfl rfl (by decide)

/-! ## Dynamic scheduler: Parallel.xrange and _QueueIterator.next

The shared state is the per-worker list self._thread_loop_ids plus the FIFO
self._dynamic_queue.  Both Parallel.xrange and _QueueIterator.next run
entirely under self._queuelock, so an execution of a region is a sequence of
atomic operations: an xrange call by worker w, or one next() call by worker
w on the iterator its last xrange returned (the iterator's loop_id is the
value of the worker's slot, which only that worker's own xrange calls
change).  Queue items carry a ghost provenance tag (the loop id under which
they were pushed); the tag is never consulted by the transition function,
it only lets the theorems speak about which loop an item was pushed for. -/

/-- Python max() over a non-empty list (max of self._thread_loop_ids). -/
def pymax : List Int → Int
  | [] => 0
  | x :: xs => xs.foldl max x

/-- The shared dynamic-scheduler state of one region. -/
structure DynState where
  loopIds : List Int
  queue : List (Int × Int)
deriving Repr, DecidableEq

/-- Fresh state for a region with W workers: self._thread_loop_ids is
[-1] * num_threads and the queue is empty. -/
def initState (W : Nat) : DynState :=
  { loopIds := List.replicate W (-1), queue := [] }

/-- One atomic lock-guarded operation of the dynamic scheduler. -/
inductive DynOp where
  | xrange (w : Nat) (start : Int) (stop : Option Int) (step : Int)
  | step (w : Nat)
deriving Repr, DecidableEq

def DynOp.worker : DynOp → Nat
  | DynOp.xrange w _ _ _ => w
  | DynOp.step w => w

/-- Observable events of the dynamic scheduler. -/
inductive DynEvent where
  | populate (w : Nat) (loopId : Int)
  | push (loopId : Int) (item : Int)
  | yieldE (w : Nat) (loopId : Int) (tag : Int) (item : Int)
  | stopE (w : Nat) (loopId : Int)
deriving Repr, DecidableEq

/-- Apply one operation.  xrange: read frontier = max(loop ids), increment
the caller's slot, and if frontier < new id push every item of
range(start, stop, step); the returned iterator is bound to the new id.
step: _QueueIterator.next under the queue lock: recompute the frontier, stop
if it passed this loop or the queue is empty, else pop the front item. -/
def applyOp (s : DynState) : DynOp → DynState × List DynEvent
  | DynOp.xrange w start stop step =>
    let ss := resolveStartStop start stop
    let frontier := pymax s.loopIds
    let ids := s.loopIds.set w (s.loopIds.getD w 0 + 1)
    let loop_id := ids.getD w 0
    if frontier < loop_id then
      let items := rangeList ss.1 ss.2 step
      ({ loopIds := ids, queue := s.queue ++ items.map (fun x => (loop_id, x)) },
       DynEvent.populate w loop_id :: items.map (DynEvent.push loop_id))
    else
      ({ s with loopIds := ids }, [])
  | DynOp.step w =>
    let loop_id := s.loopIds.getD w 0
    let frontier := pymax s.loopIds
    if loop_id < frontier then (s, [DynEvent.stopE w loop_id])
    else
      match s.queue with
      | [] => (s, [DynEvent.stopE w loop_id])
      | q :: rest =>
        ({ s with queue := rest }, [DynEvent.yieldE w loop_id q.1 q.2])

/-- Run a sequence of operations, accumulating events. -/
def runOps (ops : List DynOp) (s : DynState) : DynState × List DynEvent :=
  match ops with
  | [] => (s, [])
  | op :: rest =>
    let r := applyOp s op
    let r2 := runOps rest r.1
    (r2.1, r.2 ++ r2.2)

/-- All operations name a worker index below W. -/
def opsWF (W : Nat) (ops : List DynOp) : Prop :=
  ∀ op ∈ ops, op.worker < W

instance (W : Nat) (ops : List DynOp) : Decidable (opsWF W ops) :=
  List.decidableBAll _ ops

/-- The populate-on-empty condition for one operation: if this xrange call
would take the populate branch, the shared queue is empty at that moment. -/
def dOp (s : DynState) : DynOp → Bool
  | DynOp.xrange w _ _ _ =>
    if pymax s.loopIds < (s.loopIds.set w (s.loopIds.getD w 0 + 1)).getD w 0
    then s.queue.isEmpty else true
  | DynOp.step _ => true

/-- The run keeps the populate-on-empty discipline: whenever an xrange call
takes the populate branch, the shared queue is empty at that moment.  This
holds in particular whenever every worker runs each iterator to exhaustion
before calling xrange again. -/
def disciplined (s : DynState) : List DynOp → Bool
  | [] => true
  | op :: rest => dOp s op && disciplined (applyOp s op).1 rest

lemma le_foldl_max (xs : List Int) : ∀ a : Int, a ≤ xs.foldl max a := by
  induction xs with
  | nil => intro a; exact le_refl a
  | cons z zs ih =>
    intro a
    exact le_trans (le_max_left a z) (ih (max a z))

lemma mem_le_foldl_max (xs : List Int) : ∀ (a y : Int), y ∈ xs → y ≤ xs.foldl max a := by
  induction xs with
  | nil => intro a y hy; exact absurd hy (List.not_mem_nil y)
  | cons z zs ih =>
    intro a y hy
    rcases List.mem_cons.mp hy with h | h
    · subst h
      exact le_trans (le_max_right a y) (le_foldl_max zs (max a y))
    · exact ih (max a z) y h

lemma foldl_max_le (xs : List Int) : ∀ (a b : Int), a ≤ b → (∀ y ∈ xs, y ≤ b) →
    xs.foldl max a ≤ b := by
  induction xs with
  | nil => intro a b hab _; exact hab
  | cons z zs ih =>
    intro a b hab hall
    exact ih (max a z) b (max_le hab (hall z (List.mem_cons_self z zs)))
      (fun y hy => hall y (List.mem_cons_of_mem z hy))

lemma foldl_max_mem (xs : List Int) : ∀ a : Int,
    xs.foldl max a = a ∨ xs.foldl max a ∈ xs := by
  induction xs with
  | nil => intro a; exact Or.inl rfl
  | cons z zs ih =>
    intro a
    rcases ih (max a z) with h | h
    · rcases max_choice a z with hz | hz
      · left
        show zs.foldl max (max a z) = a
        rw [h]
        exact hz
      · right
        apply List.mem_cons.mpr
        left
        show zs.foldl max (max a z) = z
        rw [h]
        exact hz
    · exact Or.inr (List.mem_cons_of_mem z h)

lemma le_pymax_of_mem (l : List Int) (y : Int) (hy : y ∈ l) : y ≤ pymax l := by
  cases l with
  | nil => exact absurd hy (List.not_mem_nil y)
  | cons x xs =>
    rcases List.mem_cons.mp hy with h | h
    · subst h
      exact le_foldl_max xs y
    · exact mem_le_foldl_max xs x y h

lemma pymax_mem (l : List Int) (hl : l ≠ []) : pymax l ∈ l := by
  cases l with
  | nil => exact absurd rfl hl
  | cons x xs =>
    rcases foldl_max_mem xs x with h | h
    · rw [show pymax (x :: xs) = xs.foldl max x from rfl, h]
      exact List.mem_cons_self x xs
    · exact List.mem_cons_of_mem x h

lemma pymax_le (l : List Int) (b : Int) (hl : l ≠ []) (h : ∀ y ∈ l, y ≤ b) :
    pymax l ≤ b := by
  cases l with
  | nil => exact absurd rfl hl
  | cons x xs =>
    exact foldl_max_le xs x b (h x (List.mem_cons_self x xs))
      (fun y hy => h y (List.mem_cons_of_mem x hy))

lemma pymax_replicate (n : Nat) (c : Int) (hn : 0 < n) :
    pymax (List.replicate n c) = c := by
  have hne : List.replicate n c ≠ [] := by
    intro h
    have hcong := congrArg List.length h
    simp at hcong
    omega
  have h1 : pymax (List.replicate n c) ≤ c :=
    pymax_le _ c hne (fun y hy => le_of_eq (List.eq_of_mem_replicate hy))
  have h2 : c ≤ pymax (List.replicate n c) :=
    le_pymax_of_mem _ c (List.mem_replicate.mpr ⟨by omega, rfl⟩)
  exact le_antisymm h1 h2

lemma getD_mem (l : List Int) (w : Nat) (hw : w < l.length) : l.getD w 0 ∈ l := by
  rw [List.getD_eq_getElem l 0 hw]
  exact List.getElem_mem hw

lemma getD_set_self (l : List Int) (w : Nat) (x : Int) (hw : w < l.length) :
    (l.set w x).getD w 0 = x := by
  have hw2 : w < (l.set w x).length := by
    rw [List.length_set]
    exact hw
  rw [List.getD_eq_getElem _ 0 hw2]
  exact List.getElem_set_self ..

lemma mem_set_self (l : List Int) (w : Nat) (x : Int) (hw : w < l.length) :
    x ∈ l.set w x := by
  have hw2 : w < (l.set w x).length := by
    rw [List.length_set]
    exact hw
  have h1 : (l.set w x)[w] = x := List.getElem_set_self ..
  have h2 := List.getElem_mem hw2
  rw [h1] at h2
  exact h2

lemma pymax_set_of_le (l : List Int) (w : Nat) (x : Int) (hw : w < l.length)
    (hlt : l.getD w 0 < x) (hle : x ≤ pymax l) :
    pymax (l.set w x) = pymax l := by
  have hne : l ≠ [] := by
    intro h
    subst h
    exact absurd hw (by simp)
  have hne2 : l.set w x ≠ [] := by
    intro h
    have := List.length_set l w x ▸ congrArg List.length h
    simp at this
    subst this
    exact absurd hw (by simp)
  apply le_antisymm
  · apply pymax_le _ _ hne2
    intro y hy
    rcases List.mem_or_eq_of_mem_set hy with h | h
    · exact le_pymax_of_mem l y h
    · exact h ▸ hle
  · obtain ⟨i, hi, heq⟩ := List.mem_iff_getElem.mp (pymax_mem l hne)
    have hiw : i ≠ w := by
      intro hcontra
      subst hcontra
      rw [List.getD_eq_getElem l 0 hi] at hlt
      omega
    have hmem : pymax l ∈ l.set w x := by
      rw [List.mem_iff_getElem]
      refine ⟨i, by rw [List.length_set]; exact hi, ?_⟩
      rw [List.getElem_set_ne (by omega)]
      exact heq
    exact le_pymax_of_mem _ _ hmem

lemma pymax_set_of_gt (l : List Int) (w : Nat) (x : Int) (hw : w < l.length)
    (hgt : pymax l < x) : pymax (l.set w x) = x := by
  have hne2 : l.set w x ≠ [] := by
    intro h
    have := List.length_set l w x ▸ congrArg List.length h
    simp at this
    subst this
    exact absurd hw (by simp)
  apply le_antisymm
  · apply pymax_le _ _ hne2
    intro y hy
    rcases List.mem_or_eq_of_mem_set hy with h | h
    · exact le_of_lt (lt_of_le_of_lt (le_pymax_of_mem l y h) hgt)
    · exact le_of_eq h
  · exact le_pymax_of_mem _ _ (mem_set_self l w x hw)

/-- The (worker, loop id) pairs of the populate events of a trace. -/
def populateEvents (evs : List DynEvent) : List (Nat × Int) :=
  evs.filterMap fun e => match e with
    | DynEvent.populate w l => some (w, l)
    | _ => none

def populateIds (evs : List DynEvent) : List Int :=
  (populateEvents evs).map Prod.snd

/-- The integers 0, 1, ..., m (empty for m < 0). -/
def intRange0 (m : Int) : List Int :=
  (List.range (m + 1).toNat).map Int.ofNat

lemma populateEvents_append (a b : List DynEvent) :
    populateEvents (a ++ b) = populateEvents a ++ populateEvents b := by
  unfold populateEvents
  exact List.filterMap_append ..

lemma populateIds_append (a b : List DynEvent) :
    populateIds (a ++ b) = populateIds a ++ populateIds b := by
  unfold populateIds
  rw [populateEvents_append, List.map_append]

lemma populateEvents_push_map (l : Int) (items : List Int) :
    populateEvents (items.map (DynEvent.push l)) = [] := by
  induction items with
  | nil => rfl
  | cons a t ih =>
    simp only [List.map_cons]
    rw [show populateEvents (DynEvent.push l a :: t.map (DynEvent.push l))
        = populateEvents (t.map (DynEvent.push l)) from rfl, ih]

lemma intRange0_succ (m : Int) (hm : -1 ≤ m) :
    intRange0 (m + 1) = intRange0 m ++ [m + 1] := by
  unfold intRange0
  have h1 : (m + 1 + 1).toNat = (m + 1).toNat + 1 := by omega
  rw [h1, List.range_succ, List.map_append]
  simp only [List.map_cons, List.map_nil]
  congr 2
  rw [Int.ofNat_eq_natCast]
  exact Int.toNat_of_nonneg (by omega)

/-- Structural invariant of a run: the loop-id list keeps length W, the
frontier never drops below -1, and the populate events seen so far have
loop ids exactly 0, 1, ..., frontier, in order. -/
def Inv1 (W : Nat) (s : DynState) (h : List DynEvent) : Prop :=
  s.loopIds.length = W ∧ -1 ≤ pymax s.loopIds
    ∧ populateIds h = intRange0 (pymax s.loopIds)

lemma inv1_step (W : Nat) (s : DynState) (h : List DynEvent) (op : DynOp)
    (hwf : op.worker < W) (hI : Inv1 W s h) :
    Inv1 W (applyOp s op).1 (h ++ (applyOp s op).2) := by
  obtain ⟨hlen, hneg, hpop⟩ := hI
  cases op with
  | xrange w st sp ss =>
    have hw : w < s.loopIds.length := by
      rw [hlen]
      exact hwf
    have hid : (s.loopIds.set w (s.loopIds.getD w 0 + 1)).getD w 0
        = s.loopIds.getD w 0 + 1 := getD_set_self _ _ _ hw
    have hslot : s.loopIds.getD w 0 ≤ pymax s.loopIds :=
      le_pymax_of_mem _ _ (getD_mem _ _ hw)
    by_cases hcond : pymax s.loopIds
        < (s.loopIds.set w (s.loopIds.getD w 0 + 1)).getD w 0
    · have hcond2 : pymax s.loopIds < s.loopIds.getD w 0 + 1 := by
        rw [hid] at hcond
        exact hcond
      have hmax : pymax (s.loopIds.set w (s.loopIds.getD w 0 + 1))
          = s.loopIds.getD w 0 + 1 := pymax_set_of_gt _ _ _ hw hcond2
      simp only [applyOp]
      rw [if_pos hcond]
      refine ⟨by simp [List.length_set, hlen], ?_, ?_⟩
      · simp only [hid, hmax]
        omega
      · simp only [hid, hmax]
        rw [populateIds_append]
        rw [show populateIds (DynEvent.populate w (s.loopIds.getD w 0 + 1)
            :: (rangeList (resolveStartStop st sp).1 (resolveStartStop st sp).2
              ss).map (DynEvent.push (s.loopIds.getD w 0 + 1)))
          = (s.loopIds.getD w 0 + 1)
            :: populateIds ((rangeList (resolveStartStop st sp).1
              (resolveStartStop st sp).2 ss).map
              (DynEvent.push (s.loopIds.getD w 0 + 1))) from rfl]
        rw [show populateIds ((rangeList (resolveStartStop st sp).1
              (resolveStartStop st sp).2 ss).map
              (DynEvent.push (s.loopIds.getD w 0 + 1))) = [] from by
          unfold populateIds
          rw [populateEvents_push_map]
          rfl]
        have heqm : s.loopIds.getD w 0 = pymax s.loopIds := by omega
        rw [hpop, heqm, ← intRange0_succ (pymax s.loopIds) hneg]
    · have hcond2 : s.loopIds.getD w 0 + 1 ≤ pymax s.loopIds := by
        rw [hid] at hcond
        omega
      have hmax : pymax (s.loopIds.set w (s.loopIds.getD w 0 + 1))
          = pymax s.loopIds :=
        pymax_set_of_le _ _ _ hw (by omega) hcond2
      simp only [applyOp]
      rw [if_neg hcond]
      exact ⟨by simp [List.length_set, hlen], by rw [hmax]; exact hneg,
        by rw [List.append_nil, hmax]; exact hpop⟩
  | step w =>
    simp only [applyOp]
    split
    · exact ⟨hlen, hneg, by
        rw [populateIds_append,
          show populateIds [DynEvent.stopE w (s.loopIds.getD w 0)] = [] from rfl,
          List.append_nil]
        exact hpop⟩
    · split
      · exact ⟨hlen, hneg, by
          rw [populateIds_append,
            show populateIds [DynEvent.stopE w (s.loopIds.getD w 0)] = [] from rfl,
            List.append_nil]
          exact hpop⟩
      · rename_i q rest hq
        exact ⟨hlen, hneg, by
          rw [populateIds_append,
            show populateIds [DynEvent.yieldE w (s.loopIds.getD w 0) q.1 q.2]
              = [] from rfl,
            List.append_nil]
          exact hpop⟩

lemma inv1_run (W : Nat) : ∀ (ops : List DynOp) (s : DynState)
    (h : List DynEvent), opsWF W ops → Inv1 W s h →
    Inv1 W (runOps ops s).1 (h ++ (runOps ops s).2) := by
  intro ops
  induction ops with
  | nil =>
    intro s h _ hI
    simpa [runOps] using hI
  | cons op rest ih =>
    intro s h hwf hI
    have hop : op.worker < W := hwf op (List.mem_cons_self op rest)
    have hrest : opsWF W rest := fun o ho => hwf o (List.mem_cons_of_mem op ho)
    have h1 := inv1_step W s h op hop hI
    have h2 := ih (applyOp s op).1 (h ++ (applyOp s op).2) hrest h1
    simpa [runOps, List.append_assoc] using h2

lemma inv1_init (W : Nat) (hW : 0 < W) : Inv1 W (initState W) [] := by
  unfold Inv1 initState
  simp only []
  rw [pymax_replicate W (-1) hW]
  refine ⟨List.length_replicate .., by omega, ?_⟩
  rfl

lemma countP_intRange0_map (v : Int) : ∀ n : Nat,
    ((List.range n).map Int.ofNat).countP (fun x => decide (x = v))
      = if 0 ≤ v ∧ v < (n : Int) then 1 else 0 := by
  intro n
  induction n with
  | zero =>
    rw [if_neg (by omega)]
    rfl
  | succ m ih =>
    rw [List.range_succ, List.map_append, List.countP_append, ih]
    have hsingle : (([m] : List Nat).map Int.ofNat).countP
        (fun x => decide (x = v)) = if (m : Int) = v then 1 else 0 := by
      simp only [List.map_cons, List.map_nil, List.countP_cons, List.countP_nil,
        Int.ofNat_eq_natCast, decide_eq_true_eq]
      split_ifs with h1 <;> omega
    rw [hsingle]
    push_cast
    split_ifs <;> omega

lemma filter_populate_length (evs : List DynEvent) (v : Int) :
    ((populateEvents evs).filter (fun pe => pe.2 = v)).length
      = (populateIds evs).countP (fun x => decide (x = v)) := by
  unfold populateIds
  rw [List.countP_map, ← List.countP_eq_length_filter]
  rfl

/-- C9: along any run of a region's dynamic scheduler, every loop-id value v
that the frontier has reached was populated by exactly one worker's xrange
call (the one that raised its own slot strictly above the previous maximum),
and no loop-id value is ever populated twice: all the other workers reaching
the same loop id skip the populate branch and push nothing. -/
theorem populate_branch_unique (W : Nat) (ops : List DynOp) (hW : 0 < W)
    (hwf : opsWF W ops) :
    (∀ v : Int, 0 ≤ v → v ≤ pymax (runOps ops (initState W)).1.loopIds →
      ((populateEvents (runOps ops (initState W)).2).filter
          (fun pe => pe.2 = v)).length = 1)
    ∧ (∀ v : Int,
      ((populateEvents (runOps ops (initState W)).2).filter
          (fun pe => pe.2 = v)).length ≤ 1) := by
  have hI := inv1_run W ops (initState W) [] hwf (inv1_init W hW)
  rw [List.nil_append] at hI
  obtain ⟨hlen, hneg, hpop⟩ := hI
  constructor
  · intro v hv0 hvle
    rw [filter_populate_length, hpop]
    unfold intRange0
    rw [countP_intRange0_map]
    split_ifs with hcond
    · rfl
    · exfalso
      omega
  · intro v
    rw [filter_populate_length, hpop]
    unfold intRange0
    rw [countP_intRange0_map]
    split_ifs <;> omega

/-- Witness for C9: two workers, both calling xrange; loop id 0 is populated
exactly once. -/
theorem populate_branch_unique_wit :
    ((populateEvents (runOps [DynOp.xrange 0 3 none 1, DynOp.xrange 1 3 none 1,
        DynOp.step 0] (initState 2)).2).filter (fun pe => pe.2 = 0)).length
      = 1 :=
  (populate_branch_unique 2 [DynOp.xrange 0 3 none 1, DynOp.xrange 1 3 none 1,
    DynOp.step 0] (by decide) (by decide)).1 0 (by decide) (by decide)

lemma applyOp_loopIds_length (s : DynState) (op : DynOp) :
    (applyOp s op).1.loopIds.length = s.loopIds.length := by
  cases op with
  | xrange w st sp ss =>
    simp only [applyOp]
    split
    · exact List.length_set ..
    · exact List.length_set ..
  | step w =>
    simp only [applyOp]
    split
    · rfl
    · split
      · rfl
      · rfl

lemma applyOp_pymax_mono (W : Nat) (s : DynState) (op : DynOp)
    (hwf : op.worker < W) (hlen : s.loopIds.length = W) :
    pymax s.loopIds ≤ pymax (applyOp s op).1.loopIds := by
  cases op with
  | xrange w st sp ss =>
    have hw : w < s.loopIds.length := by
      rw [hlen]
      exact hwf
    have hid := getD_set_self s.loopIds w (s.loopIds.getD w 0 + 1) hw
    have hslot := le_pymax_of_mem _ _ (getD_mem s.loopIds w hw)
    simp only [applyOp]
    split
    · rename_i hcond
      rw [hid] at hcond
      show pymax s.loopIds ≤ pymax (s.loopIds.set w (s.loopIds.getD w 0 + 1))
      rw [pymax_set_of_gt _ _ _ hw hcond]
      omega
    · rename_i hcond
      rw [hid] at hcond
      show pymax s.loopIds ≤ pymax (s.loopIds.set w (s.loopIds.getD w 0 + 1))
      rw [pymax_set_of_le _ _ _ hw (by omega) (by omega)]
  | step w =>
    simp only [applyOp]
    split
    · exact le_refl _
    · split
      · exact le_refl _
      · exact le_refl _

/-- Items yielded by iterators bound to loop v (any worker), in order. -/
def yieldsOfLoop (v : Int) (evs : List DynEvent) : List Int :=
  evs.filterMap fun e => match e with
    | DynEvent.yieldE _ l _ x => if l = v then some x else none
    | _ => none

/-- Items yielded whose ghost provenance tag is v (pushed for loop v). -/
def yieldsTagged (v : Int) (evs : List DynEvent) : List Int :=
  evs.filterMap fun e => match e with
    | DynEvent.yieldE _ _ t x => if t = v then some x else none
    | _ => none

/-- Items pushed into the shared queue for loop v, in order. -/
def pushesFor (v : Int) (evs : List DynEvent) : List Int :=
  evs.filterMap fun e => match e with
    | DynEvent.push l x => if l = v then some x else none
    | _ => none

lemma yieldsOfLoop_append (v : Int) (a b : List DynEvent) :
    yieldsOfLoop v (a ++ b) = yieldsOfLoop v a ++ yieldsOfLoop v b :=
  List.filterMap_append ..

lemma yieldsTagged_append (v : Int) (a b : List DynEvent) :
    yieldsTagged v (a ++ b) = yieldsTagged v a ++ yieldsTagged v b :=
  List.filterMap_append ..

lemma pushesFor_append (v : Int) (a b : List DynEvent) :
    pushesFor v (a ++ b) = pushesFor v a ++ pushesFor v b :=
  List.filterMap_append ..

lemma yieldsOfLoop_cons_pop (v l : Int) (w : Nat) (evs : List DynEvent) :
    yieldsOfLoop v (DynEvent.populate w l :: evs) = yieldsOfLoop v evs := rfl

lemma yieldsOfLoop_cons_push (v l x : Int) (evs : List DynEvent) :
    yieldsOfLoop v (DynEvent.push l x :: evs) = yieldsOfLoop v evs := rfl

lemma yieldsOfLoop_cons_stop (v l : Int) (w : Nat) (evs : List DynEvent) :
    yieldsOfLoop v (DynEvent.stopE w l :: evs) = yieldsOfLoop v evs := rfl

lemma yieldsOfLoop_cons_yield (v l t x : Int) (w : Nat) (evs : List DynEvent) :
    yieldsOfLoop v (DynEvent.yieldE w l t x :: evs)
      = (if l = v then [x] else []) ++ yieldsOfLoop v evs := by
  unfold yieldsOfLoop
  rw [List.filterMap_cons]
  by_cases hl : l = v
  · simp [hl]
  · simp [hl]

lemma yieldsOfLoop_push_map (v l : Int) (items : List Int) :
    yieldsOfLoop v (items.map (DynEvent.push l)) = [] := by
  induction items with
  | nil => rfl
  | cons a t ih =>
    rw [List.map_cons, yieldsOfLoop_cons_push]
    exact ih

lemma runOps_pymax_mono (W : Nat) : ∀ (ops : List DynOp) (s : DynState),
    opsWF W ops → s.loopIds.length = W →
    pymax s.loopIds ≤ pymax (runOps ops s).1.loopIds := by
  intro ops
  induction ops with
  | nil =>
    intro s _ _
    exact le_refl _
  | cons op rest ih =>
    intro s hwf hlen
    have hop : op.worker < W := hwf op (List.mem_cons_self op rest)
    have hrest : opsWF W rest := fun o ho => hwf o (List.mem_cons_of_mem op ho)
    simp only [runOps]
    exact le_trans (applyOp_pymax_mono W s op hop hlen)
      (ih (applyOp s op).1 hrest
        (by rw [applyOp_loopIds_length]; exact hlen))

/-- Once the frontier has passed loop v, no iterator of loop v ever yields
again: every later next() call bound to loop v raises StopIteration. -/
lemma yieldsOfLoop_retired (W : Nat) : ∀ (ops : List DynOp) (s : DynState)
    (v : Int), opsWF W ops → s.loopIds.length = W → v < pymax s.loopIds →
    yieldsOfLoop v (runOps ops s).2 = [] := by
  intro ops
  induction ops with
  | nil =>
    intro s v _ _ _
    rfl
  | cons op rest ih =>
    intro s v hwf hlen hv
    have hop : op.worker < W := hwf op (List.mem_cons_self op rest)
    have hrest : opsWF W rest := fun o ho => hwf o (List.mem_cons_of_mem op ho)
    simp only [runOps]
    rw [yieldsOfLoop_append]
    have h1 : yieldsOfLoop v (applyOp s op).2 = [] := by
      cases op with
      | xrange w st sp ss =>
        simp only [applyOp]
        split
        · rw [yieldsOfLoop_cons_pop]
          exact yieldsOfLoop_push_map ..
        · rfl
      | step w =>
        have hw : w < s.loopIds.length := by
          rw [hlen]
          exact hop
        have hle : s.loopIds.getD w 0 ≤ pymax s.loopIds :=
          le_pymax_of_mem _ _ (getD_mem _ _ hw)
        simp only [applyOp]
        split
        · rfl
        · split
          · rfl
          · rename_i hncond q rest2 hq
            have hne : ¬ s.loopIds.getD w 0 = v := by omega
            rw [yieldsOfLoop_cons_yield, if_neg hne, List.nil_append]
            rfl
    rw [h1, List.nil_append]
    exact ih (applyOp s op).1 v hrest
      (by rw [applyOp_loopIds_length]; exact hlen)
      (lt_of_lt_of_le hv (applyOp_pymax_mono W s op hop hlen))

/-- C2 counterexample: one worker enters a dynamic loop over range(3)
(pushed as loop 0), abandons it without pulling anything, enters a second
dynamic loop over range(10) (loop 1), and the first next() of the loop-1
iterator yields item 0 of loop 0: an index pushed for one dynamic loop is
yielded by the iterator of a later dynamic loop, because xrange never clears
leftover items before repopulating. -/
theorem dynamic_cross_loop_leak_cex :
    DynEvent.push 0 0
        ∈ (runOps [DynOp.xrange 0 3 none 1, DynOp.xrange 0 10 none 1,
            DynOp.step 0] (initState 1)).2
    ∧ DynEvent.yieldE 0 1 0 0
        ∈ (runOps [DynOp.xrange 0 3 none 1, DynOp.xrange 0 10 none 1,
            DynOp.step 0] (initState 1)).2 := by
  constructor <;> decide

lemma applyOp_xrange_populate (s : DynState) (w : Nat) (st : Int)
    (sp : Option Int) (ss : Int) (hw : w < s.loopIds.length)
    (hcond : pymax s.loopIds < s.loopIds.getD w 0 + 1) :
    applyOp s (DynOp.xrange w st sp ss)
      = ({ loopIds := s.loopIds.set w (s.loopIds.getD w 0 + 1),
           queue := s.queue ++ (rangeList (resolveStartStop st sp).1
             (resolveStartStop st sp).2 ss).map
             (fun x => (s.loopIds.getD w 0 + 1, x)) },
         DynEvent.populate w (s.loopIds.getD w 0 + 1)
           :: (rangeList (resolveStartStop st sp).1 (resolveStartStop st sp).2
             ss).map (DynEvent.push (s.loopIds.getD w 0 + 1))) := by
  have hid := getD_set_self s.loopIds w (s.loopIds.getD w 0 + 1) hw
  simp only [applyOp]
  rw [hid, if_pos hcond]

lemma applyOp_xrange_skip (s : DynState) (w : Nat) (st : Int)
    (sp : Option Int) (ss : Int) (hw : w < s.loopIds.length)
    (hcond : ¬ pymax s.loopIds < s.loopIds.getD w 0 + 1) :
    applyOp s (DynOp.xrange w st sp ss)
      = ({ s with loopIds := s.loopIds.set w (s.loopIds.getD w 0 + 1) }, []) := by
  have hid := getD_set_self s.loopIds w (s.loopIds.getD w 0 + 1) hw
  simp only [applyOp]
  rw [hid, if_neg hcond]

lemma applyOp_step_stop_front (s : DynState) (w : Nat)
    (hcond : s.loopIds.getD w 0 < pymax s.loopIds) :
    applyOp s (DynOp.step w)
      = (s, [DynEvent.stopE w (s.loopIds.getD w 0)]) := by
  simp only [applyOp]
  rw [if_pos hcond]

lemma applyOp_step_stop_empty (s : DynState) (w : Nat)
    (hcond : ¬ s.loopIds.getD w 0 < pymax s.loopIds) (hq : s.queue = []) :
    applyOp s (DynOp.step w)
      = (s, [DynEvent.stopE w (s.loopIds.getD w 0)]) := by
  simp only [applyOp]
  rw [if_neg hcond, hq]

lemma applyOp_step_yield (s : DynState) (w : Nat) (q : Int × Int)
    (rest : List (Int × Int))
    (hcond : ¬ s.loopIds.getD w 0 < pymax s.loopIds)
    (hq : s.queue = q :: rest) :
    applyOp s (DynOp.step w)
      = ({ s with queue := rest },
         [DynEvent.yieldE w (s.loopIds.getD w 0) q.1 q.2]) := by
  simp only [applyOp]
  rw [if_neg hcond, hq]

lemma pushesFor_cons_pop (v l : Int) (w : Nat) (evs : List DynEvent) :
    pushesFor v (DynEvent.populate w l :: evs) = pushesFor v evs := rfl

lemma pushesFor_cons_stop (v l : Int) (w : Nat) (evs : List DynEvent) :
    pushesFor v (DynEvent.stopE w l :: evs) = pushesFor v evs := rfl

lemma pushesFor_cons_yield (v l t x : Int) (w : Nat) (evs : List DynEvent) :
    pushesFor v (DynEvent.yieldE w l t x :: evs) = pushesFor v evs := rfl

lemma pushesFor_cons_push (v l x : Int) (evs : List DynEvent) :
    pushesFor v (DynEvent.push l x :: evs)
      = (if l = v then [x] else []) ++ pushesFor v evs := by
  unfold pushesFor
  rw [List.filterMap_cons]
  by_cases hl : l = v
  · simp [hl]
  · simp [hl]

lemma pushesFor_push_map (v l : Int) (items : List Int) :
    pushesFor v (items.map (DynEvent.push l))
      = if l = v then items else [] := by
  induction items with
  | nil =>
    by_cases hl : l = v <;> simp [hl, pushesFor]
  | cons a t ih =>
    rw [List.map_cons, pushesFor_cons_push, ih]
    by_cases hl : l = v <;> simp [hl]

lemma yieldsTagged_cons_pop (v l : Int) (w : Nat) (evs : List DynEvent) :
    yieldsTagged v (DynEvent.populate w l :: evs) = yieldsTagged v evs := rfl

lemma yieldsTagged_cons_stop (v l : Int) (w : Nat) (evs : List DynEvent) :
    yieldsTagged v (DynEvent.stopE w l :: evs) = yieldsTagged v evs := rfl

lemma yieldsTagged_cons_push (v l x : Int) (evs : List DynEvent) :
    yieldsTagged v (DynEvent.push l x :: evs) = yieldsTagged v evs := rfl

lemma yieldsTagged_cons_yield (v l t x : Int) (w : Nat) (evs : List DynEvent) :
    yieldsTagged v (DynEvent.yieldE w l t x :: evs)
      = (if t = v then [x] else []) ++ yieldsTagged v evs := by
  unfold yieldsTagged
  rw [List.filterMap_cons]
  by_cases ht : t = v
  · simp [ht]
  · simp [ht]

lemma yieldsTagged_push_map (v l : Int) (items : List Int) :
    yieldsTagged v (items.map (DynEvent.push l)) = [] := by
  induction items with
  | nil => rfl
  | cons a t ih =>
    rw [List.map_cons, yieldsTagged_cons_push]
    exact ih

lemma pushesFor_above_final (W : Nat) : ∀ (ops : List DynOp) (s : DynState)
    (v : Int), opsWF W ops → s.loopIds.length = W →
    pymax (runOps ops s).1.loopIds < v →
    pushesFor v (runOps ops s).2 = [] := by
  intro ops
  induction ops with
  | nil =>
    intro s v _ _ _
    rfl
  | cons op rest ih =>
    intro s v hwf hlen hv
    have hop : op.worker < W := hwf op (List.mem_cons_self op rest)
    have hrest : opsWF W rest := fun o ho => hwf o (List.mem_cons_of_mem op ho)
    have hlen2 : (applyOp s op).1.loopIds.length = W := by
      rw [applyOp_loopIds_length]
      exact hlen
    simp only [runOps] at hv ⊢
    rw [pushesFor_append]
    have hfin : pymax (applyOp s op).1.loopIds
        ≤ pymax (runOps rest (applyOp s op).1).1.loopIds :=
      runOps_pymax_mono W rest (applyOp s op).1 hrest hlen2
    have h1 : pushesFor v (applyOp s op).2 = [] := by
      cases op with
      | xrange w st sp ss =>
        have hw : w < s.loopIds.length := by
          rw [hlen]
          exact hop
        by_cases hcond : pymax s.loopIds < s.loopIds.getD w 0 + 1
        · have hmax : pymax (s.loopIds.set w (s.loopIds.getD w 0 + 1))
              = s.loopIds.getD w 0 + 1 := pymax_set_of_gt _ _ _ hw hcond
          have hfin2 : s.loopIds.getD w 0 + 1
              ≤ pymax (runOps rest (applyOp s (DynOp.xrange w st sp ss)).1).1.loopIds := by
            refine le_trans (le_of_eq ?_) hfin
            rw [applyOp_xrange_populate s w st sp ss hw hcond]
            exact hmax.symm
          rw [applyOp_xrange_populate s w st sp ss hw hcond,
            pushesFor_cons_pop, pushesFor_push_map,
            if_neg (show ¬ s.loopIds.getD w 0 + 1 = v by omega)]
        · rw [applyOp_xrange_skip s w st sp ss hw hcond]
          rfl
      | step w =>
        by_cases hcond : s.loopIds.getD w 0 < pymax s.loopIds
        · rw [applyOp_step_stop_front s w hcond]
          rfl
        · cases hq : s.queue with
          | nil =>
            rw [applyOp_step_stop_empty s w hcond hq]
            rfl
          | cons q rest2 =>
            rw [applyOp_step_yield s w q rest2 hcond hq]
            rfl
    rw [h1, List.nil_append]
    exact ih (applyOp s op).1 v hrest hlen2 hv

lemma pushesFor_reached (W : Nat) : ∀ (ops : List DynOp) (s : DynState)
    (v : Int), opsWF W ops → s.loopIds.length = W → v ≤ pymax s.loopIds →
    pushesFor v (runOps ops s).2 = [] := by
  intro ops
  induction ops with
  | nil =>
    intro s v _ _ _
    rfl
  | cons op rest ih =>
    intro s v hwf hlen hv
    have hop : op.worker < W := hwf op (List.mem_cons_self op rest)
    have hrest : opsWF W rest := fun o ho => hwf o (List.mem_cons_of_mem op ho)
    have hlen2 : (applyOp s op).1.loopIds.length = W := by
      rw [applyOp_loopIds_length]
      exact hlen
    have hmono := applyOp_pymax_mono W s op hop hlen
    simp only [runOps]
    rw [pushesFor_append]
    have h1 : pushesFor v (applyOp s op).2 = [] := by
      cases op with
      | xrange w st sp ss =>
        have hw : w < s.loopIds.length := by
          rw [hlen]
          exact hop
        by_cases hcond : pymax s.loopIds < s.loopIds.getD w 0 + 1
        · rw [applyOp_xrange_populate s w st sp ss hw hcond,
            pushesFor_cons_pop, pushesFor_push_map,
            if_neg (show ¬ s.loopIds.getD w 0 + 1 = v by omega)]
        · rw [applyOp_xrange_skip s w st sp ss hw hcond]
          rfl
      | step w =>
        by_cases hcond : s.loopIds.getD w 0 < pymax s.loopIds
        · rw [applyOp_step_stop_front s w hcond]
          rfl
        · cases hq : s.queue with
          | nil =>
            rw [applyOp_step_stop_empty s w hcond hq]
            rfl
          | cons q rest2 =>
            rw [applyOp_step_yield s w q rest2 hcond hq]
            rfl
    rw [h1, List.nil_append]
    exact ih (applyOp s op).1 v hrest hlen2 (le_trans hv hmono)

/-- A yield event is well-tagged when the item it delivers was pushed for
exactly the loop its iterator is bound to. -/
def tagMatches : DynEvent → Prop
  | DynEvent.yieldE _ l t _ => t = l
  | _ => True

lemma yieldsTagged_eq_yieldsOfLoop (v : Int) : ∀ (evs : List DynEvent),
    (∀ e ∈ evs, tagMatches e) → yieldsTagged v evs = yieldsOfLoop v evs := by
  intro evs
  induction evs with
  | nil =>
    intro _
    rfl
  | cons e rest ih =>
    intro hall
    have he := hall e (List.mem_cons_self e rest)
    have hrest := fun e2 h2 => hall e2 (List.mem_cons_of_mem e h2)
    cases e with
    | populate w l =>
      rw [yieldsTagged_cons_pop, yieldsOfLoop_cons_pop]
      exact ih hrest
    | push l x =>
      rw [yieldsTagged_cons_push, yieldsOfLoop_cons_push]
      exact ih hrest
    | stopE w l =>
      rw [yieldsTagged_cons_stop, yieldsOfLoop_cons_stop]
      exact ih hrest
    | yieldE w l t x =>
      have ht : t = l := he
      rw [yieldsTagged_cons_yield, yieldsOfLoop_cons_yield, ih hrest, ht]

lemma filter_fst_map (v l : Int) (items : List Int) :
    (((items.map (fun x => (l, x))).filter (fun q => q.1 = v)).map Prod.snd)
      = if l = v then items else [] := by
  induction items with
  | nil => by_cases hl : l = v <;> simp [hl]
  | cons a t ih =>
    by_cases hl : l = v
    · subst hl
      simp [List.filter_cons, ih]
    · simp [List.filter_cons, hl, ih]

lemma filter_fst_all_ne (v m : Int) (qs : List (Int × Int))
    (hall : ∀ q ∈ qs, q.1 = m) (hne : v ≠ m) :
    qs.filter (fun q => q.1 = v) = [] := by
  rw [List.filter_eq_nil_iff]
  intro q hq
  have hqm := hall q hq
  simp [hqm]
  omega

/-- Invariant of populate-on-empty (disciplined) runs: every queued item is
tagged with the current frontier; for every loop v the items pushed for v
are exactly the items already yielded with tag v followed by the still
queued items tagged v; and every yield so far was well-tagged. -/
def Inv2 (s : DynState) (h : List DynEvent) : Prop :=
  (∀ q ∈ s.queue, q.1 = pymax s.loopIds)
  ∧ (∀ v : Int, pushesFor v h
      = yieldsTagged v h ++ (s.queue.filter (fun q => q.1 = v)).map Prod.snd)
  ∧ (∀ e ∈ h, tagMatches e)

lemma inv2_populate (s : DynState) (h : List DynEvent) (w : Nat)
    (loop_id : Int) (items : List Int) (ids : List Int) (hqe : s.queue = [])
    (hmax2 : pymax ids = loop_id) (hI : Inv2 s h) :
    Inv2 { loopIds := ids, queue := s.queue ++ items.map (fun x => (loop_id, x)) }
      (h ++ DynEvent.populate w loop_id :: items.map (DynEvent.push loop_id)) := by
  obtain ⟨hq, hpush, htags⟩ := hI
  refine ⟨?_, ?_, ?_⟩
  · intro q hq2
    have hq3 : q ∈ s.queue ++ items.map (fun x => (loop_id, x)) := hq2
    rw [hqe, List.nil_append] at hq3
    obtain ⟨x, _, hx⟩ := List.mem_map.mp hq3
    show q.1 = pymax ids
    rw [← hx, hmax2]
  · intro v
    have hbase := hpush v
    rw [hqe] at hbase
    rw [show (List.filter (fun q => decide (q.1 = v)) ([] : List (Int × Int)))
      = [] from rfl] at hbase
    rw [List.map_nil, List.append_nil] at hbase
    rw [pushesFor_append, yieldsTagged_append, pushesFor_cons_pop,
      pushesFor_push_map, yieldsTagged_cons_pop, yieldsTagged_push_map,
      List.append_nil, hbase]
    show yieldsTagged v h ++ (if loop_id = v then items else [])
      = yieldsTagged v h
        ++ ((s.queue ++ items.map (fun x => (loop_id, x))).filter
            (fun q => q.1 = v)).map Prod.snd
    rw [hqe, List.nil_append, filter_fst_map]
  · intro e he
    rcases List.mem_append.mp he with h1 | h2
    · exact htags e h1
    · rcases List.mem_cons.mp h2 with h3 | h4
      · subst h3
        trivial
      · obtain ⟨x, _, hx⟩ := List.mem_map.mp h4
        rw [← hx]
        trivial

lemma inv2_newids (s : DynState) (h : List DynEvent) (ids : List Int)
    (hmax : pymax ids = pymax s.loopIds) (hI : Inv2 s h) :
    Inv2 { s with loopIds := ids } h := by
  obtain ⟨hq, hpush, htags⟩ := hI
  refine ⟨?_, ?_, htags⟩
  · intro q hq2
    have hq3 : q ∈ s.queue := hq2
    show q.1 = pymax ids
    rw [hmax]
    exact hq q hq3
  · intro v
    exact hpush v

lemma inv2_stop (s : DynState) (h : List DynEvent) (w : Nat) (l : Int)
    (hI : Inv2 s h) : Inv2 s (h ++ [DynEvent.stopE w l]) := by
  obtain ⟨hq, hpush, htags⟩ := hI
  refine ⟨hq, ?_, ?_⟩
  · intro v
    rw [pushesFor_append, yieldsTagged_append, pushesFor_cons_stop,
      yieldsTagged_cons_stop]
    show pushesFor v h ++ pushesFor v [] = (yieldsTagged v h ++ yieldsTagged v [])
      ++ _
    rw [show pushesFor v ([] : List DynEvent) = [] from rfl,
      show yieldsTagged v ([] : List DynEvent) = [] from rfl,
      List.append_nil, List.append_nil]
    exact hpush v
  · intro e he
    rcases List.mem_append.mp he with h1 | h2
    · exact htags e h1
    · rcases List.mem_singleton.mp h2 with h3
      subst h3
      trivial

lemma inv2_yield (s : DynState) (h : List DynEvent) (w : Nat) (q0 : Int × Int)
    (rest : List (Int × Int)) (hq0 : s.queue = q0 :: rest) (loop_id : Int)
    (hlid : loop_id = pymax s.loopIds) (hI : Inv2 s h) :
    Inv2 { s with queue := rest }
      (h ++ [DynEvent.yieldE w loop_id q0.1 q0.2]) := by
  obtain ⟨hq, hpush, htags⟩ := hI
  have htag0 : q0.1 = pymax s.loopIds := hq q0 (by rw [hq0]; exact List.mem_cons_self ..)
  refine ⟨?_, ?_, ?_⟩
  · intro q hq2
    have hq3 : q ∈ rest := hq2
    show q.1 = pymax s.loopIds
    exact hq q (by rw [hq0]; exact List.mem_cons_of_mem q0 hq3)
  · intro v
    have hbase := hpush v
    rw [hq0, List.filter_cons] at hbase
    rw [pushesFor_append, yieldsTagged_append, pushesFor_cons_yield,
      yieldsTagged_cons_yield]
    rw [show pushesFor v ([] : List DynEvent) = [] from rfl, List.append_nil]
    rw [show yieldsTagged v ([] : List DynEvent) = [] from rfl, List.append_nil]
    show pushesFor v h = (yieldsTagged v h ++ (if q0.1 = v then [q0.2] else []))
      ++ (rest.filter (fun q => q.1 = v)).map Prod.snd
    by_cases hv : q0.1 = v
    · rw [if_pos hv]
      rw [if_pos (by simp [hv])] at hbase
      rw [List.map_cons] at hbase
      rw [hbase, List.append_assoc]
      rfl
    · rw [if_neg hv]
      rw [if_neg (by simp [hv])] at hbase
      rw [hbase, List.append_nil]
  · intro e he
    rcases List.mem_append.mp he with h1 | h2
    · exact htags e h1
    · rcases List.mem_singleton.mp h2 with h3
      subst h3
      show q0.1 = loop_id
      rw [hlid]
      exact htag0

lemma inv2_step (W : Nat) (s : DynState) (h : List DynEvent) (op : DynOp)
    (hwf : op.worker < W) (hlen : s.loopIds.length = W)
    (hd : dOp s op = true) (hI : Inv2 s h) :
    Inv2 (applyOp s op).1 (h ++ (applyOp s op).2) := by
  cases op with
  | xrange w st sp ss =>
    have hw : w < s.loopIds.length := by
      rw [hlen]
      exact hwf
    have hid := getD_set_self s.loopIds w (s.loopIds.getD w 0 + 1) hw
    rw [show dOp s (DynOp.xrange w st sp ss)
      = (if pymax s.loopIds
          < (s.loopIds.set w (s.loopIds.getD w 0 + 1)).getD w 0
        then s.queue.isEmpty else true) from rfl, hid] at hd
    by_cases hcond : pymax s.loopIds < s.loopIds.getD w 0 + 1
    · rw [if_pos hcond] at hd
      have hqe : s.queue = [] := by
        cases hqq : s.queue with
        | nil => rfl
        | cons a b =>
          rw [hqq] at hd
          simp at hd
      have hmax := pymax_set_of_gt s.loopIds w (s.loopIds.getD w 0 + 1) hw hcond
      rw [applyOp_xrange_populate s w st sp ss hw hcond]
      exact inv2_populate s h w (s.loopIds.getD w 0 + 1) _ _ hqe hmax hI
    · rw [applyOp_xrange_skip s w st sp ss hw hcond]
      have hslot := le_pymax_of_mem _ _ (getD_mem s.loopIds w hw)
      have hmax := pymax_set_of_le s.loopIds w (s.loopIds.getD w 0 + 1) hw
        (by omega) (by omega)
      show Inv2 { s with loopIds := s.loopIds.set w (s.loopIds.getD w 0 + 1) }
        (h ++ [])
      rw [List.append_nil]
      exact inv2_newids s h _ hmax hI
  | step w =>
    by_cases hcond : s.loopIds.getD w 0 < pymax s.loopIds
    · rw [applyOp_step_stop_front s w hcond]
      exact inv2_stop s h w _ hI
    · cases hq : s.queue with
      | nil =>
        rw [applyOp_step_stop_empty s w hcond hq]
        exact inv2_stop s h w _ hI
      | cons q0 rest =>
        rw [applyOp_step_yield s w q0 rest hcond hq]
        have hw : w < s.loopIds.length := by
          rw [hlen]
          exact hwf
        have hle := le_pymax_of_mem _ _ (getD_mem s.loopIds w hw)
        have hlid : s.loopIds.getD w 0 = pymax s.loopIds := by omega
        exact inv2_yield s h w q0 rest hq _ hlid hI

lemma inv2_run (W : Nat) : ∀ (ops : List DynOp) (s : DynState)
    (h : List DynEvent), opsWF W ops → disciplined s ops = true →
    s.loopIds.length = W → Inv2 s h →
    Inv2 (runOps ops s).1 (h ++ (runOps ops s).2) := by
  intro ops
  induction ops with
  | nil =>
    intro s h _ _ _ hI
    simpa [runOps] using hI
  | cons op rest ih =>
    intro s h hwf hdisc hlen hI
    have hop : op.worker < W := hwf op (List.mem_cons_self op rest)
    have hrest : opsWF W rest := fun o ho => hwf o (List.mem_cons_of_mem op ho)
    simp only [disciplined, Bool.and_eq_true] at hdisc
    have h1 := inv2_step W s h op hop hlen hdisc.1 hI
    have h2 := ih (applyOp s op).1 (h ++ (applyOp s op).2) hrest hdisc.2
      (by rw [applyOp_loopIds_length]; exact hlen) h1
    simpa [runOps, List.append_assoc] using h2

lemma inv2_init (W : Nat) : Inv2 (initState W) [] := by
  refine ⟨?_, ?_, ?_⟩
  · intro q hq
    exact absurd hq (List.not_mem_nil q)
  · intro v
    rfl
  · intro e he
    exact absurd he (List.not_mem_nil e)

/-- C2 amended: within one region, (a) provided every populate happens on an
empty queue (populate-on-empty discipline, which holds whenever every worker
runs each dynamic-loop iterator to exhaustion before its next xrange call),
every yielded item carries the tag of the very loop its iterator is bound
to, so an index pushed for one dynamic loop is never yielded by the iterator
of a later (or earlier) dynamic loop; without that discipline this fails
(see the counterexample: leftover items of an abandoned loop are handed to a
later loop's iterator); and (b) unconditionally, once any single worker's
loop-id has advanced past loop v, no iterator of loop v ever yields again:
the remaining queued items of that loop are abandoned. -/
theorem dynamic_loop_isolation (W : Nat) (ops1 ops2 : List DynOp) (v : Int)
    (hW : 0 < W) (hwf : opsWF W (ops1 ++ ops2)) :
    (disciplined (initState W) (ops1 ++ ops2) = true →
      ∀ e ∈ (runOps (ops1 ++ ops2) (initState W)).2, tagMatches e)
    ∧ (v < pymax (runOps ops1 (initState W)).1.loopIds →
      yieldsOfLoop v (runOps ops2 (runOps ops1 (initState W)).1).2 = []) := by
  have hwf1 : opsWF W ops1 := fun o ho => hwf o (List.mem_append.mpr (Or.inl ho))
  have hwf2 : opsWF W ops2 := fun o ho => hwf o (List.mem_append.mpr (Or.inr ho))
  have hlen0 : (initState W).loopIds.length = W := List.length_replicate ..
  constructor
  · intro hdisc e he
    have hI := inv2_run W (ops1 ++ ops2) (initState W) [] hwf hdisc hlen0
      (inv2_init W)
    rw [List.nil_append] at hI
    exact hI.2.2 e he
  · intro hv
    have hlen1 : (runOps ops1 (initState W)).1.loopIds.length = W :=
      (inv1_run W ops1 (initState W) [] hwf1 (inv1_init W hW)).1
    exact yieldsOfLoop_retired W ops2 (runOps ops1 (initState W)).1 v hwf2
      hlen1 hv

/-- Witness for C2's amended statement: one worker drains loop 0 fully, then
opens loop 1; all yields are well-tagged, and after the frontier reaches
loop 1 no loop-0 yield occurs. -/
theorem dynamic_loop_isolation_wit :
    (∀ e ∈ (runOps ([DynOp.xrange 0 2 none 1, DynOp.step 0, DynOp.step 0,
        DynOp.step 0, DynOp.xrange 0 2 none 1] ++ [DynOp.step 0])
        (initState 1)).2, tagMatches e)
    ∧ yieldsOfLoop 0 (runOps [DynOp.step 0]
        (runOps [DynOp.xrange 0 2 none 1, DynOp.step 0, DynOp.step 0,
          DynOp.step 0, DynOp.xrange 0 2 none 1] (initState 1)).1).2 = [] :=
  ⟨(dynamic_loop_isolation 1 [DynOp.xrange 0 2 none 1, DynOp.step 0,
      DynOp.step 0, DynOp.step 0, DynOp.xrange 0 2 none 1] [DynOp.step 0] 0
      (by decide) (by decide)).1 (by decide),
   (dynamic_loop_isolation 1 [DynOp.xrange 0 2 none 1, DynOp.step 0,
      DynOp.step 0, DynOp.step 0, DynOp.xrange 0 2 none 1] [DynOp.step 0] 0
      (by decide) (by decide)).2 (by decide)⟩

lemma runOps_append (a b : List DynOp) : ∀ s : DynState,
    runOps (a ++ b) s
      = ((runOps b (runOps a s).1).1,
         (runOps a s).2 ++ (runOps b (runOps a s).1).2) := by
  induction a with
  | nil =>
    intro s
    simp [runOps]
  | cons op rest ih =>
    intro s
    show runOps (op :: (rest ++ b)) s = _
    simp only [runOps]
    rw [ih (applyOp s op).1]
    rw [List.append_assoc]

/-- C3: in a disciplined run (each populate happens on an empty queue, as
when every participating worker drains each iterator before advancing), if
worker w's xrange call opens a new dynamic loop v over range(st, sp, ss),
and that loop is completed (some worker later advanced past v, or the run
ends with the queue empty), then the items yielded by the iterators of loop
v across all workers, in yield order, are exactly the stride items of the
requested range: each of the N items is yielded exactly once and the total
number of yields of the loop is N. -/
theorem dynamic_each_item_once (W w : Nat) (st : Int) (sp : Option Int)
    (ss : Int) (ops1 ops2 : List DynOp) (v : Int) (hW : 0 < W)
    (hwf : opsWF W (ops1 ++ DynOp.xrange w st sp ss :: ops2))
    (hdisc : disciplined (initState W)
      (ops1 ++ DynOp.xrange w st sp ss :: ops2) = true)
    (hpop : pymax (runOps ops1 (initState W)).1.loopIds
      < (runOps ops1 (initState W)).1.loopIds.getD w 0 + 1)
    (hv : v = (runOps ops1 (initState W)).1.loopIds.getD w 0 + 1)
    (hdone : v < pymax (runOps (ops1 ++ DynOp.xrange w st sp ss :: ops2)
          (initState W)).1.loopIds
      ∨ (runOps (ops1 ++ DynOp.xrange w st sp ss :: ops2)
          (initState W)).1.queue = []) :
    yieldsOfLoop v
        (runOps (ops1 ++ DynOp.xrange w st sp ss :: ops2) (initState W)).2
      = rangeList (resolveStartStop st sp).1 (resolveStartStop st sp).2 ss := by
  have hlen0 : (initState W).loopIds.length = W := List.length_replicate ..
  have hwf1 : opsWF W ops1 := fun o ho =>
    hwf o (List.mem_append.mpr (Or.inl ho))
  have hwfw : w < W := by
    have := hwf (DynOp.xrange w st sp ss)
      (List.mem_append.mpr (Or.inr (List.mem_cons_self ..)))
    exact this
  have hwf2 : opsWF W ops2 := fun o ho =>
    hwf o (List.mem_append.mpr (Or.inr (List.mem_cons_of_mem _ ho)))
  have hlen1 : (runOps ops1 (initState W)).1.loopIds.length = W :=
    (inv1_run W ops1 (initState W) [] hwf1 (inv1_init W hW)).1
  have hw1 : w < (runOps ops1 (initState W)).1.loopIds.length := by
    rw [hlen1]
    exact hwfw
  have heqop := applyOp_xrange_populate (runOps ops1 (initState W)).1 w st sp ss
    hw1 hpop
  have hfull : runOps (ops1 ++ DynOp.xrange w st sp ss :: ops2) (initState W)
      = ((runOps ops2
           (applyOp (runOps ops1 (initState W)).1 (DynOp.xrange w st sp ss)).1).1,
         (runOps ops1 (initState W)).2
           ++ ((applyOp (runOps ops1 (initState W)).1
                 (DynOp.xrange w st sp ss)).2
             ++ (runOps ops2
               (applyOp (runOps ops1 (initState W)).1
                 (DynOp.xrange w st sp ss)).1).2)) := by
    rw [runOps_append]
    rfl
  -- invariant at the end of the full disciplined run
  have hInv := inv2_run W (ops1 ++ DynOp.xrange w st sp ss :: ops2)
    (initState W) [] hwf hdisc hlen0 (inv2_init W)
  rw [List.nil_append] at hInv
  obtain ⟨hqtags, hpushyield, htags⟩ := hInv
  -- the queued remainder of loop v at the end is empty
  have hqnil : (((runOps (ops1 ++ DynOp.xrange w st sp ss :: ops2)
        (initState W)).1.queue).filter (fun q => q.1 = v)).map Prod.snd
      = [] := by
    rcases hdone with hlt | hqe
    · rw [filter_fst_all_ne v
        (pymax (runOps (ops1 ++ DynOp.xrange w st sp ss :: ops2)
          (initState W)).1.loopIds) _ hqtags (by omega)]
      rfl
    · rw [hqe]
      rfl
  -- pushes for v across the whole run are exactly the requested stride items
  have hmax2 : pymax (applyOp (runOps ops1 (initState W)).1
      (DynOp.xrange w st sp ss)).1.loopIds = v := by
    rw [heqop]
    show pymax ((runOps ops1 (initState W)).1.loopIds.set w
      ((runOps ops1 (initState W)).1.loopIds.getD w 0 + 1)) = v
    rw [pymax_set_of_gt _ _ _ hw1 hpop, hv]
  have hlen2 : (applyOp (runOps ops1 (initState W)).1
      (DynOp.xrange w st sp ss)).1.loopIds.length = W := by
    rw [applyOp_loopIds_length]
    exact hlen1
  have hpushesA : pushesFor v (runOps ops1 (initState W)).2 = [] :=
    pushesFor_above_final W ops1 (initState W) v hwf1 hlen0 (by omega)
  have hpushesB : pushesFor v (runOps ops2
      (applyOp (runOps ops1 (initState W)).1 (DynOp.xrange w st sp ss)).1).2
      = [] :=
    pushesFor_reached W ops2 _ v hwf2 hlen2 (le_of_eq hmax2.symm)
  have hpushesOp : pushesFor v (applyOp (runOps ops1 (initState W)).1
      (DynOp.xrange w st sp ss)).2
      = rangeList (resolveStartStop st sp).1 (resolveStartStop st sp).2 ss := by
    rw [heqop]
    show pushesFor v (DynEvent.populate w
        ((runOps ops1 (initState W)).1.loopIds.getD w 0 + 1)
      :: (rangeList (resolveStartStop st sp).1 (resolveStartStop st sp).2
        ss).map (DynEvent.push
        ((runOps ops1 (initState W)).1.loopIds.getD w 0 + 1))) = _
    rw [pushesFor_cons_pop, pushesFor_push_map, if_pos hv.symm]
  have hpushes : pushesFor v (runOps (ops1 ++ DynOp.xrange w st sp ss :: ops2)
      (initState W)).2
      = rangeList (resolveStartStop st sp).1 (resolveStartStop st sp).2 ss := by
    rw [hfull]
    show pushesFor v ((runOps ops1 (initState W)).2 ++ _) = _
    rw [pushesFor_append, pushesFor_append, hpushesA, hpushesOp, hpushesB,
      List.nil_append, List.append_nil]
  have hyt := hpushyield v
  rw [hqnil, List.append_nil] at hyt
  rw [← yieldsTagged_eq_yieldsOfLoop v _ htags, ← hyt, hpushes]

/-- Witness for C3: two workers, loop 0 over range(3); worker 0 yields items
0 and 2, worker 1 yields item 1, and together the yields of loop 0 are
exactly [0, 1, 2]. -/
theorem dynamic_each_item_once_wit :
    yieldsOfLoop 0 (runOps ([] ++ DynOp.xrange 0 3 none 1
        :: [DynOp.xrange 1 3 none 1, DynOp.step 0, DynOp.step 1, DynOp.step 0,
            DynOp.step 0, DynOp.step 1]) (initState 2)).2
      = rangeList (resolveStartStop 3 none).1 (resolveStartStop 3 none).2 1 :=
  dynamic_each_item_once 2 0 3 none 1 []
    [DynOp.xrange 1 3 none 1, DynOp.step 0, DynOp.step 1, DynOp.step 0,
      DynOp.step 0, DynOp.step 1] 0 (by decide) (by decide) (by decide)
    (by decide) (by decide) (Or.inr (by decide))
